import Mathlib

/-!
# TrenchBroom: layer nodes, preference INI parsing, issue browser

Shallow embedding of

* `common/src/Model/LayerNode.cpp` (bounds cache, add-child rule, sort order),
* `common/src/PreferenceManager.cpp` (`parseINI`),
* `common/src/View/IssueBrowserView.cpp` (`updateIssues`),

followed by the theorems about them.

Conventions.  A C++ object with mutable members is a Lean structure and a
member function is a function from the old object to the result and the new
object.  `vm::bbox3` is a type parameter `B` (no property below depends on the
arithmetic of boxes), the children of a node are a list over a type parameter
`N`.  Functions of other translation units that the embedded code calls are
fields of a parameter structure.
-/

namespace TrenchBroom
namespace Model

/-! ## Layer nodes (`LayerNode.cpp`) -/

/-- The five concrete node classes a node visitor is dispatched on
(the overload set passed to `Node::accept`). -/
inductive NodeKind where
  | WorldNode
  | LayerNode
  | GroupNode
  | EntityNode
  | BrushNode
  deriving DecidableEq, Repr

/-- What `LayerNode` needs to know of its parent: the address of the layer that
`WorldNode::defaultLayer()` returns. -/
structure WorldNode where
  defaultLayer : Nat
  deriving DecidableEq, Repr

/-- Functions and constants that `LayerNode.cpp` uses and that are defined in
other translation units (`Model/ModelUtils`, `vm::bbox3`, `kdl/string_utils`,
`Model/EntityAttributes`). -/
structure Externals (N B : Type) where
  /-- Function `computeLogicalBounds(nodes, defaultBounds)` of `Model/ModelUtils.h`. -/
  computeLogicalBounds : List N → B → B
  /-- Function `computePhysicalBounds(nodes, defaultBounds)` of `Model/ModelUtils.h`. -/
  computePhysicalBounds : List N → B → B
  /-- The box `vm::bbox3(0.0)`. -/
  zeroBox : B
  /-- Function `attribute(name)` of the attributable base class, applied to the attribute
  store of the node (`attribute` is a reserved word here). -/
  attributeOf : List (String × String) → String → String
  /-- The constant `AttributeNames::LayerSortIndex`. -/
  LayerSortIndex : String
  /-- Function `kdl::str_to_int`. -/
  str_to_int : String → Option Int

/-- The object state of a `LayerNode`.

* `self` is the address of the object, `parent` is `Node::parent()`
  (`none` for `nullptr`; the `ensure` in `isDefaultLayer` makes it a world);
* `attributes` is the attribute store of the attributable base class;
* `children` is `Node::children()`;
* `m_boundsValid`, `m_logicalBounds`, `m_physicalBounds` are the `mutable`
  members of the bounds cache;
* `validations` is a ghost counter of the executions of `validateBounds`; it has
  no counterpart in the C++ object and no function reads it. -/
structure LayerNode (N B : Type) where
  self : Nat
  parent : Option WorldNode
  attributes : List (String × String)
  children : List N
  m_boundsValid : Bool
  m_logicalBounds : B
  m_physicalBounds : B
  validations : Nat

/-- Insertion of `a` into a list whose elements all stood after `a`: `a` goes
in front of the first element that is not less than it. -/
def insertStable {α : Type} (comp : α → α → Bool) (a : α) : List α → List α
  | [] => [a]
  | b :: l => if comp b a then b :: insertStable comp a l else a :: b :: l

/-- Function `std::stable_sort(first, last, comp)` of the standard library as insertion
sort: an element moves in front of an earlier one only if `comp` says it is
less. -/
def stable_sort {α : Type} (comp : α → α → Bool) : List α → List α
  | [] => []
  | a :: l => insertStable comp a (stable_sort comp l)

namespace LayerNode

variable {N B : Type}

/-- Function `LayerNode::invalidateBounds`: `m_boundsValid = false`. -/
def invalidateBounds (n : LayerNode N B) : LayerNode N B :=
  { n with m_boundsValid := false }

/-- Function `LayerNode::validateBounds`: both boxes are recomputed from `children()`
and the flag is set (the ghost counter records the execution). -/
def validateBounds (x : Externals N B) (n : LayerNode N B) : LayerNode N B :=
  { n with
    m_logicalBounds := x.computeLogicalBounds n.children x.zeroBox
    m_physicalBounds := x.computePhysicalBounds n.children x.zeroBox
    m_boundsValid := true
    validations := n.validations + 1 }

/-- Function `LayerNode::doGetLogicalBounds`: validate when the flag is down, then
return `m_logicalBounds`.  The result is the returned box and the object after
the call. -/
def doGetLogicalBounds (x : Externals N B) (n : LayerNode N B) : B × LayerNode N B :=
  let n1 := if !n.m_boundsValid then validateBounds x n else n
  (n1.m_logicalBounds, n1)

/-- Function `LayerNode::doGetPhysicalBounds`: validate when the flag is down, then
return `m_physicalBounds`. -/
def doGetPhysicalBounds (x : Externals N B) (n : LayerNode N B) : B × LayerNode N B :=
  let n1 := if !n.m_boundsValid then validateBounds x n else n
  (n1.m_physicalBounds, n1)

/-- Function `LayerNode::doNodePhysicalBoundsDidChange`: calls `invalidateBounds`. -/
def doNodePhysicalBoundsDidChange (n : LayerNode N B) : LayerNode N B :=
  invalidateBounds n

/-- Function `LayerNode::doCanAddChild`: the visitor given to `child->accept`, one
lambda per node class. -/
def doCanAddChild (child : NodeKind) : Bool :=
  match child with
  | NodeKind.WorldNode => false
  | NodeKind.LayerNode => false
  | NodeKind.GroupNode => true
  | NodeKind.EntityNode => true
  | NodeKind.BrushNode => true

/-- Function `LayerNode::isDefaultLayer`: false without a parent, otherwise whether the
default layer of the parent world is this object. -/
def isDefaultLayer (n : LayerNode N B) : Bool :=
  match n.parent with
  | none => false
  | some world => world.defaultLayer == n.self

/-- Function `LayerNode::invalidSortIndex`: `std::numeric_limits<int>::max()`. -/
def invalidSortIndex : Int := 2147483647

/-- Function `LayerNode::defaultLayerSortIndex`. -/
def defaultLayerSortIndex : Int := -1

/-- Function `LayerNode::sortIndex`. -/
def sortIndex (x : Externals N B) (n : LayerNode N B) : Int :=
  if isDefaultLayer n then defaultLayerSortIndex
  else
    let indexString := x.attributeOf n.attributes x.LayerSortIndex
    if indexString.isEmpty then invalidSortIndex
    else (x.str_to_int indexString).getD invalidSortIndex

/-- Function `LayerNode::sortLayers`: stable sort with the comparison
`a->sortIndex() < b->sortIndex()`; the result is the vector after the call. -/
def sortLayers (x : Externals N B) (layers : List (LayerNode N B)) : List (LayerNode N B) :=
  stable_sort (fun a b => decide (sortIndex x a < sortIndex x b)) layers

end LayerNode

/-! ### Sample data -/

/-- Externals used to evaluate the cache on concrete numbers: a child is its
extent, a box is a number, the logical bounds are the sum of the extents and
the physical bounds are that sum plus the number of children. -/
def sampleExternals : Externals Nat Int where
  computeLogicalBounds := fun cs d => cs.foldl (fun acc c => acc + (c : Int)) d
  computePhysicalBounds := fun cs d => cs.foldl (fun acc c => acc + (c : Int) + 1) d
  zeroBox := 0
  attributeOf := fun attrs name => (attrs.lookup name).getD ""
  LayerSortIndex := "_tb_layer_sort_index"
  str_to_int := fun s => s.toInt?

/-- A layer with two children and a stale cache. -/
def sampleLayer : LayerNode Nat Int where
  self := 1
  parent := some { defaultLayer := 0 }
  attributes := []
  children := [3, 4]
  m_boundsValid := false
  m_logicalBounds := 100
  m_physicalBounds := 200
  validations := 0

/-! ### Propagation of the bounds notification -/

/-- Functions that `LayerNode::setSortIndex` uses and that are defined outside
`LayerNode.cpp`. -/
structure AttributeExternals where
  /-- Function `addOrUpdateAttribute(name, value)` of the attributable base class,
  applied to the attribute store of the node. -/
  addOrUpdateAttribute : List (String × String) → String → String → List (String × String)
  /-- Function `std::to_string(int)`. -/
  to_string : Int → String

/-- Function `LayerNode::setSortIndex`: nothing happens on the default layer;
otherwise the printed index is stored under `AttributeNames::LayerSortIndex`.
The result is the object after the call. -/
def LayerNode.setSortIndex {N B : Type} (x : Externals N B) (y : AttributeExternals)
    (index : Int) (n : LayerNode N B) : LayerNode N B :=
  if LayerNode.isDefaultLayer n then n
  else
    { n with
      attributes := y.addOrUpdateAttribute n.attributes x.LayerSortIndex (y.to_string index) }

/-- An attribute store for evaluation: a new value replaces the pairs of the
same name, and the index is printed in decimal. -/
def sampleAttributeExternals : AttributeExternals where
  addOrUpdateAttribute := fun attrs name value =>
    (name, value) :: attrs.filter (fun a => a.1 != name)
  to_string := fun i => toString i

/-- The sample layer as the default layer of its world, with a sort-index
attribute of its own. -/
def sampleDefaultLayer : LayerNode Nat Int :=
  { sampleLayer with
    parent := some { defaultLayer := 1 }
    attributes := [("_tb_layer_sort_index", "5")] }

end Model

/-! ## Preferences (`PreferenceManager.cpp`)

A `QString` is the list of its characters.  The text stream given to
`parseINI` is the list of the lines that `readLine` returns until `atEnd`
holds.  A `std::map` is an association list with one pair per key; the order
of the pairs is the order of first assignment and plays no part. -/

/-- The `QString` of Qt as the list of its characters. -/
abbrev QString := List Char

namespace QString

/-- Function `QChar::isSpace`: the characters `\t`, `\n`, `\v`, `\f`, `\r`, the
space, U+0085, U+00A0 and the Unicode separators. -/
def isSpace (c : Char) : Bool :=
  let n := c.toNat
  n == 0x20 || (0x09 ≤ n && n ≤ 0x0d) || n == 0x85 || n == 0xa0 || n == 0x1680 ||
    (0x2000 ≤ n && n ≤ 0x200a) || n == 0x2028 || n == 0x2029 || n == 0x202f ||
    n == 0x205f || n == 0x3000

/-- Function `QString::trimmed`: whitespace removed from the start and the end. -/
def trimmed (s : QString) : QString :=
  ((s.dropWhile isSpace).reverse.dropWhile isSpace).reverse

/-- The backslash character. -/
def backslash : Char := Char.ofNat 92

/-- The call `line.replace("\\ ", " ")`: every occurrence of a backslash
followed by a space, found from left to right, becomes one space. -/
def replaceEscapedSpaces : QString → QString
  | [] => []
  | [c] => [c]
  | c :: d :: rest =>
    if c = backslash ∧ d = ' ' then ' ' :: replaceEscapedSpaces rest
    else c :: replaceEscapedSpaces (d :: rest)

/-- Function `QString::startsWith(QChar)`. -/
def startsWith (s : QString) (c : Char) : Bool := s.head? == some c

/-- Function `QString::endsWith(QChar)`. -/
def endsWith (s : QString) (c : Char) : Bool := s.getLast? == some c

/-- Function `QString::mid(position, n)` for a position that is not negative: the `n`
characters from `position` on, all characters from `position` on if `n` is
negative or there are fewer than `n`. -/
def mid (s : QString) (position : Nat) (n : Int) : QString :=
  if n < 0 then s.drop position else (s.drop position).take n.toNat

/-- Function `QString::left(n)`: the first `n` characters, the entire string if `n` is
negative or not less than the size. -/
def left (s : QString) (n : Int) : QString :=
  if n < 0 ∨ (s.length : Int) ≤ n then s else s.take n.toNat

/-- Function `QString::indexOf(QChar)`: the index of the first occurrence, `-1` if there
is none. -/
def indexOf : QString → Char → Int
  | [], _ => -1
  | c :: rest, ch =>
    if c = ch then 0
    else if indexOf rest ch = -1 then -1 else indexOf rest ch + 1

end QString

/-- Function `std::map::find`: the value stored under a key. -/
def mapFind {K V : Type} [DecidableEq K] : List (K × V) → K → Option V
  | [], _ => none
  | (k1, v1) :: rest, k => if k1 = k then some v1 else mapFind rest k

/-- The assignment `m[k] = v` of `std::map`: the value of an existing key is
replaced, a new key is added. -/
def mapAssign {K V : Type} [DecidableEq K] : List (K × V) → K → V → List (K × V)
  | [], k, v => [(k, v)]
  | (k1, v1) :: rest, k, v =>
    if k1 = k then (k, v) :: rest else (k1, v1) :: mapAssign rest k v

/-- The result type `std::map<QString, std::map<QString, QString>>`. -/
abbrev INIMap := List (QString × List (QString × QString))

/-- The statement `result[section][key] = value`; `result[section]` is the
stored inner map, or a new empty one. -/
def assignEntry (result : INIMap) (sec key value : QString) : INIMap :=
  mapAssign result sec (mapAssign ((mapFind result sec).getD []) key value)

/-- The value that a result maps a section and a key to. -/
def findEntry (result : INIMap) (sec key : QString) : Option QString :=
  (mapFind result sec).bind (fun inner => mapFind inner key)

/-- One iteration of the loop of `parseINI`.  The state is the local variable
`section` and the map `result`; `raw` is the line that `readLine` returned. -/
def parseLine (st : QString × INIMap) (raw : QString) : QString × INIMap :=
  let line := QString.replaceEscapedSpaces (QString.trimmed raw)
  let sqBracketAtStart := QString.startsWith line '['
  let sqBracketAtEnd := QString.endsWith line ']'
  let heading := sqBracketAtStart && sqBracketAtEnd
  if heading then (QString.mid line 1 ((line.length : Int) - 2), st.2)
  else
    let eqIndex := QString.indexOf line '='
    if eqIndex ≠ -1 then
      let key := QString.left line eqIndex
      let value := QString.mid line (eqIndex + 1).toNat (-1)
      (st.1, assignEntry st.2 st.1 key value)
    else st

/-- Function `parseINI`: the loop over the lines of the stream, started with an empty name
of the section and an empty map; the result is the map. -/
def parseINI (iniStream : List QString) : INIMap :=
  (iniStream.foldl parseLine ([], [])).2

/-! ### The reading of `parseINI` that the specification gives

The following definitions are written from the description of `parseINI` in
words, not from its code; the theorem compares the two. -/

/-- A line "after trimming and unescaping". -/
def normalized (raw : QString) : QString :=
  QString.replaceEscapedSpaces (QString.trimmed raw)

/-- A heading is a line that starts with `[` and ends with `]`. -/
def isHeading (l : QString) : Bool :=
  l.head? == some '[' && l.getLast? == some ']'

/-- The text between the brackets of a heading. -/
def headingText (l : QString) : QString := (l.drop 1).dropLast

/-- The current section after the lines `before`: the text between the
brackets of the most recent heading, the empty string if there is none. -/
def currentSection (before : List QString) : QString :=
  match (before.map normalized).reverse.find? isHeading with
  | some h => headingText h
  | none => []

/-- The text before the first `=` of a line. -/
def textBeforeEq (l : QString) : QString := l.takeWhile (fun c => c ≠ '=')

/-- The text after the first `=` of a line. -/
def textAfterEq (l : QString) : QString := (l.dropWhile (fun c => c ≠ '=')).drop 1

/-- Line `i` of the input is an entry of section `s` with key `k`: after
trimming and unescaping it is not a heading, it contains `=`, it is read while
`s` is the current section, and `k` is the text before its first `=`. -/
def isEntryAt (lines : List QString) (i : Nat) (s k : QString) : Bool :=
  match lines[i]? with
  | none => false
  | some raw =>
    !isHeading (normalized raw) && decide ('=' ∈ normalized raw) &&
      decide (currentSection (lines.take i) = s) && decide (textBeforeEq (normalized raw) = k)

/-- The text after the first `=` of line `i`. -/
def valueAt (lines : List QString) (i : Nat) : Option QString :=
  lines[i]?.map (fun raw => textAfterEq (normalized raw))

/-- The last line of the input that is an entry of section `s` with key `k`
has the value `v`. -/
def LastEntry (lines : List QString) (s k v : QString) : Prop :=
  ∃ i, isEntryAt lines i s k = true ∧ (∀ j, i < j → isEntryAt lines j s k = false) ∧
    valueAt lines i = some v

/-- The line `k=v\ `: the key `k` and the value `v` followed by an escaped
space. -/
def lineWithEscapedSpaceAtEnd : QString :=
  ['k', '=', 'v', QString.backslash, ' ']

/-- The line `a\ b=c\ d`: an escaped space inside the key and inside the
value. -/
def lineWithEscapedSpacesInside : QString :=
  ['a', QString.backslash, ' ', 'b', '=', 'c', QString.backslash, ' ', 'd']

/-! ## Issue browser (`IssueBrowserView.cpp`)

An issue is given by what its accessors `seqId()`, `type()` and `hidden()`
return.  The `int` values of issue types and of the mask of hidden generators
are represented by their bit patterns, so that `&` is the bitwise conjunction
of natural numbers. -/

namespace View

/-- The part of `Model::Issue` that the issue browser reads. -/
structure Issue where
  seqId : Nat
  type : Nat
  hidden : Bool
  deriving DecidableEq, Repr

/-- Functions that `IssueBrowserView::updateIssues` uses and that are defined
outside `IssueBrowserView.cpp`; `W` is the type of the world of the document. -/
structure IssueExternals (W : Type) where
  /-- The issues of all nodes of a world. -/
  issues : W → List Issue
  /-- The run of a `Model::CollectMatchingIssuesVisitor` with the given predicate
  over a world (`world->acceptAndRecurse(visitor)`) followed by
  `visitor.issues()`. -/
  collectMatching : (Issue → Bool) → W → List Issue
  /-- Function `VectorUtils::sort(vec, cmp)`; the result is the vector after the
  call. -/
  sort : (Issue → Issue → Bool) → List Issue → List Issue

/-- The members of `IssueBrowserView` that `updateIssues` reads and writes. -/
structure IssueBrowserView where
  m_hiddenGenerators : Nat
  m_showHiddenIssues : Bool
  m_issues : List Issue
  deriving DecidableEq, Repr

/-- The call operator of `IssueBrowserView::IssueVisible`, constructed with
`hiddenTypes` and `showHiddenIssues`. -/
def IssueVisible (hiddenTypes : Nat) (showHiddenIssues : Bool) (issue : Issue) : Bool :=
  showHiddenIssues || (!issue.hidden && (issue.type &&& hiddenTypes) == 0)

/-- The call operator of `IssueBrowserView::IssueCmp`. -/
def IssueCmp (lhs rhs : Issue) : Bool :=
  decide (lhs.seqId > rhs.seqId)

/-- Function `IssueBrowserView::updateIssues` on the world of the document; the
result is the view after the call. -/
def updateIssues {W : Type} (x : IssueExternals W) (world : W) (v : IssueBrowserView) :
    IssueBrowserView :=
  let visitor := x.collectMatching (IssueVisible v.m_hiddenGenerators v.m_showHiddenIssues) world
  { v with m_issues := x.sort IssueCmp visitor }

/-- Externals for evaluation: a world is the list of its issues, the visitor
keeps the matching ones in their order, and the sort is the insertion sort
`Model.stable_sort`. -/
def sampleIssueExternals : IssueExternals (List Issue) where
  issues := fun w => w
  collectMatching := fun p w => w.filter p
  sort := fun cmp l => Model.stable_sort cmp l

/-- A world with four issues: a plain one, a hidden one, one of a hidden
generator (type bit 2) and another plain one. -/
def sampleWorld : List Issue :=
  [⟨3, 1, false⟩, ⟨7, 1, true⟩, ⟨5, 2, false⟩, ⟨9, 4, false⟩]

/-- A view that hides the generator with type bit 2 and does not show hidden
issues. -/
def sampleView : IssueBrowserView where
  m_hiddenGenerators := 2
  m_showHiddenIssues := false
  m_issues := []

end View

/-! # Theorems -/

namespace Model

/-! ### Theorems on the bounds cache and the add-child rule -/

section LayerNodeTheorems

variable {N B : Type}

open LayerNode

/-- C1: on a layer whose cache is invalid, both the logical and the physical
bounds query recompute both cached boxes from the current children
(`computeLogicalBounds(children, zero box)` and
`computePhysicalBounds(children, zero box)`), return the requested one and
leave the cache valid. -/
theorem C1_query_on_invalid_recomputes_both (x : Externals N B) (n : LayerNode N B)
    (h : n.m_boundsValid = false) :
    (doGetLogicalBounds x n).1 = x.computeLogicalBounds n.children x.zeroBox ∧
    (doGetPhysicalBounds x n).1 = x.computePhysicalBounds n.children x.zeroBox ∧
    (∀ q, q = (doGetLogicalBounds x n).2 ∨ q = (doGetPhysicalBounds x n).2 →
      q.m_logicalBounds = x.computeLogicalBounds n.children x.zeroBox ∧
      q.m_physicalBounds = x.computePhysicalBounds n.children x.zeroBox ∧
      q.m_boundsValid = true ∧
      q.children = n.children ∧ q.attributes = n.attributes ∧
      q.parent = n.parent ∧ q.self = n.self) := by
  refine ⟨?_, ?_, ?_⟩
  · simp [doGetLogicalBounds, validateBounds, h]
  · simp [doGetPhysicalBounds, validateBounds, h]
  · intro q hq
    rcases hq with hq | hq <;> subst hq <;>
      simp [doGetLogicalBounds, doGetPhysicalBounds, validateBounds, h]

/-- C1 at the sample layer: the stale boxes 100 and 200 are replaced by 7 and 9. -/
theorem C1_query_on_invalid_recomputes_both_witness :
    sampleLayer.m_boundsValid = false ∧
    (doGetLogicalBounds sampleExternals sampleLayer).1 = 7 ∧
    (doGetPhysicalBounds sampleExternals sampleLayer).1 = 9 := by
  have h := C1_query_on_invalid_recomputes_both sampleExternals sampleLayer rfl
  refine ⟨rfl, ?_, ?_⟩
  · rw [h.1]; decide
  · rw [h.2.1]; decide

/-- C2: whatever the state of the cache and whatever the children have become,
the physical-bounds-changed hook leaves the cache invalid and touches nothing
else, and the next logical or physical query returns the box computed from the
children present at the query, not a box cached before. -/
theorem C2_mutation_invalidates (x : Externals N B) (n : LayerNode N B) (cs : List N) :
    (doNodePhysicalBoundsDidChange n).m_boundsValid = false ∧
    (doNodePhysicalBoundsDidChange n).children = n.children ∧
    (doGetLogicalBounds x (doNodePhysicalBoundsDidChange { n with children := cs })).1
      = x.computeLogicalBounds cs x.zeroBox ∧
    (doGetPhysicalBounds x (doNodePhysicalBoundsDidChange { n with children := cs })).1
      = x.computePhysicalBounds cs x.zeroBox := by
  simp [doNodePhysicalBoundsDidChange, invalidateBounds, doGetLogicalBounds,
    doGetPhysicalBounds, validateBounds]

/-- C3: bounds queries are lazy and idempotent.  While the cache is valid both
queries return the stored box and leave the object as it is; two consecutive
queries of the same kind return equal boxes from any state; after one
invalidation a logical query followed by a physical query runs `validateBounds`
exactly once. -/
theorem C3_queries_lazy_idempotent (x : Externals N B) (n : LayerNode N B) :
    (n.m_boundsValid = true →
      doGetLogicalBounds x n = (n.m_logicalBounds, n) ∧
      doGetPhysicalBounds x n = (n.m_physicalBounds, n)) ∧
    (doGetLogicalBounds x (doGetLogicalBounds x n).2).1 = (doGetLogicalBounds x n).1 ∧
    (doGetPhysicalBounds x (doGetPhysicalBounds x n).2).1 = (doGetPhysicalBounds x n).1 ∧
    (doGetPhysicalBounds x (doGetLogicalBounds x (invalidateBounds n)).2).2.validations
      = n.validations + 1 := by
  refine ⟨?_, ?_, ?_, ?_⟩
  · intro h
    simp [doGetLogicalBounds, doGetPhysicalBounds, h]
  · cases h : n.m_boundsValid <;> simp [doGetLogicalBounds, validateBounds, h]
  · cases h : n.m_boundsValid <;> simp [doGetPhysicalBounds, validateBounds, h]
  · simp [doGetLogicalBounds, doGetPhysicalBounds, validateBounds, invalidateBounds]

/-- C3 at the sample layer after one query: the cache is valid, and the second
query returns the stored box without another validation. -/
theorem C3_queries_lazy_idempotent_witness :
    (doGetLogicalBounds sampleExternals sampleLayer).2.m_boundsValid = true ∧
    doGetPhysicalBounds sampleExternals (doGetLogicalBounds sampleExternals sampleLayer).2
      = (9, (doGetLogicalBounds sampleExternals sampleLayer).2) ∧
    (doGetPhysicalBounds sampleExternals
      (doGetLogicalBounds sampleExternals sampleLayer).2).2.validations = 1 := by
  have h := (C3_queries_lazy_idempotent sampleExternals
    (doGetLogicalBounds sampleExternals sampleLayer).2).1 rfl
  refine ⟨rfl, ?_, ?_⟩
  · rw [h.2]; rfl
  · rw [h.2]; rfl

/-- C4: the add-child rule of a layer is a total dispatch over the five node
classes: it answers true exactly for groups, entities and brushes and false
exactly for worlds and layers. -/
theorem C4_doCanAddChild_dispatch (child : NodeKind) :
    (doCanAddChild child = true ↔
      child = NodeKind.GroupNode ∨ child = NodeKind.EntityNode ∨ child = NodeKind.BrushNode) ∧
    (doCanAddChild child = false ↔
      child = NodeKind.WorldNode ∨ child = NodeKind.LayerNode) := by
  cases child <;> simp [doCanAddChild]

end LayerNodeTheorems

/-! ### Theorems on the sort order of layers -/

section SortTheorems

variable {α : Type} (f : α → Int)

/-- Inserting an element gives a permutation of the list with the element in front. -/
theorem perm_insertStable (comp : α → α → Bool) (a : α) (l : List α) :
    (insertStable comp a l).Perm (a :: l) := by
  induction l with
  | nil => exact List.Perm.refl _
  | cons b l ih =>
    unfold insertStable
    split
    · exact (List.Perm.cons b ih).trans (List.Perm.swap a b l)
    · exact List.Perm.refl _

/-- The sorted list is a permutation of the input. -/
theorem perm_stable_sort (comp : α → α → Bool) (l : List α) :
    (stable_sort comp l).Perm l := by
  induction l with
  | nil => exact List.Perm.refl _
  | cons a l ih =>
    exact (perm_insertStable comp a _).trans (List.Perm.cons a ih)

/-- Inserting into a list that is non-decreasing in the key keeps it non-decreasing. -/
theorem pairwise_insertStable (a : α) (l : List α)
    (h : l.Pairwise (fun u v => f u ≤ f v)) :
    (insertStable (fun u v => decide (f u < f v)) a l).Pairwise (fun u v => f u ≤ f v) := by
  induction l with
  | nil => simp [insertStable]
  | cons b l ih =>
    have hb := (List.pairwise_cons.mp h).1
    have hl := (List.pairwise_cons.mp h).2
    unfold insertStable
    split
    · rename_i hlt
      have hlt2 : f b < f a := by simpa using hlt
      refine List.pairwise_cons.mpr ⟨?_, ih hl⟩
      intro c hc
      rcases List.mem_cons.mp ((perm_insertStable _ a l).subset hc) with h1 | h1
      · rw [h1]; exact le_of_lt hlt2
      · exact hb c h1
    · rename_i hlt
      have hle : f a ≤ f b := by simpa using hlt
      refine List.pairwise_cons.mpr ⟨?_, h⟩
      intro c hc
      rcases List.mem_cons.mp hc with h1 | h1
      · rw [h1]; exact hle
      · exact le_trans hle (hb c h1)

/-- The sorted list is non-decreasing in the key. -/
theorem pairwise_stable_sort (l : List α) :
    (stable_sort (fun u v => decide (f u < f v)) l).Pairwise (fun u v => f u ≤ f v) := by
  induction l with
  | nil => exact List.Pairwise.nil
  | cons a l ih => exact pairwise_insertStable f a _ ih

/-- Inserting an element does not change the sequence of the elements of a given key. -/
theorem filter_insertStable (i : Int) (a : α) (l : List α) :
    (insertStable (fun u v => decide (f u < f v)) a l).filter (fun u => decide (f u = i))
      = (a :: l).filter (fun u => decide (f u = i)) := by
  induction l with
  | nil => rfl
  | cons b l ih =>
    unfold insertStable
    split
    · rename_i hlt
      have hlt2 : f b < f a := by simpa using hlt
      rw [List.filter_cons, ih]
      by_cases hb : f b = i
      · have ha : f a ≠ i := by omega
        simp [List.filter_cons, hb, ha]
      · simp [List.filter_cons, hb]
    · rfl

/-- Sorting does not change the sequence of the elements of a given key. -/
theorem filter_stable_sort (i : Int) (l : List α) :
    (stable_sort (fun u v => decide (f u < f v)) l).filter (fun u => decide (f u = i))
      = l.filter (fun u => decide (f u = i)) := by
  induction l with
  | nil => rfl
  | cons a l ih =>
    show (insertStable _ a (stable_sort _ l)).filter _ = _
    rw [filter_insertStable, List.filter_cons, List.filter_cons, ih]

/-- In a list that is non-decreasing in the key, an element with a smaller key stands at a smaller position. -/
theorem lt_of_pairwise_of_key_lt (l : List α) (h : l.Pairwise (fun u v => f u ≤ f v))
    (i j : Nat) (hi : i < l.length) (hj : j < l.length) (hlt : f l[i] < f l[j]) : i < j := by
  by_contra hc
  rcases Nat.lt_or_eq_of_le (Nat.le_of_not_lt hc) with h1 | h1
  · have := List.pairwise_iff_getElem.mp h j i hj hi h1
    omega
  · subst h1
    omega

end SortTheorems

section SortLayersTheorems

variable {N B : Type}

open LayerNode

/-- The sort index of the default layer is `-1`. -/
theorem sortIndex_default (x : Externals N B) (n : LayerNode N B)
    (h : isDefaultLayer n = true) : sortIndex x n = -1 := by
  simp [sortIndex, h, defaultLayerSortIndex]

/-- The sort index of a layer that is not the default layer and whose attribute is empty or unparsable is `invalidSortIndex`. -/
theorem sortIndex_invalid (x : Externals N B) (n : LayerNode N B)
    (h : isDefaultLayer n = false)
    (hs : (x.attributeOf n.attributes x.LayerSortIndex).isEmpty = true ∨
      x.str_to_int (x.attributeOf n.attributes x.LayerSortIndex) = none) :
    sortIndex x n = invalidSortIndex := by
  unfold sortIndex
  rw [h]
  simp only [Bool.false_eq_true, if_false]
  rcases hs with hs | hs
  · rw [if_pos hs]
  · split
    · rfl
    · rw [hs]; rfl

/-- C10: `sortLayers` leaves a permutation of its input in non-decreasing
`sortIndex` order in which the layers of each sort index stand in their
original relative order; so the default layer (index -1) stands before every
layer with a non-negative sort index, and a layer whose sort index is missing
or unparsable (`invalidSortIndex`) stands after every layer with a smaller
index. -/
theorem C10_sortLayers_stable_sorted_perm (x : Externals N B)
    (layers : List (LayerNode N B)) :
    (sortLayers x layers).Perm layers ∧
    (sortLayers x layers).Pairwise (fun a b => sortIndex x a ≤ sortIndex x b) ∧
    (∀ i : Int, (sortLayers x layers).filter (fun a => decide (sortIndex x a = i))
      = layers.filter (fun a => decide (sortIndex x a = i))) ∧
    (∀ (i j : Nat) (hi : i < (sortLayers x layers).length)
        (hj : j < (sortLayers x layers).length),
      isDefaultLayer (sortLayers x layers)[i] = true →
      0 ≤ sortIndex x (sortLayers x layers)[j] → i < j) ∧
    (∀ (i j : Nat) (hi : i < (sortLayers x layers).length)
        (hj : j < (sortLayers x layers).length),
      isDefaultLayer (sortLayers x layers)[i] = false →
      ((x.attributeOf (sortLayers x layers)[i].attributes x.LayerSortIndex).isEmpty = true ∨
        x.str_to_int (x.attributeOf (sortLayers x layers)[i].attributes x.LayerSortIndex)
          = none) →
      sortIndex x (sortLayers x layers)[j] < invalidSortIndex → j < i) := by
  have hp : (sortLayers x layers).Pairwise (fun a b => sortIndex x a ≤ sortIndex x b) :=
    pairwise_stable_sort (sortIndex x) layers
  refine ⟨perm_stable_sort _ layers, hp, ?_, ?_, ?_⟩
  · intro i
    exact filter_stable_sort (sortIndex x) i layers
  · intro i j hi hj hd hn
    apply lt_of_pairwise_of_key_lt (sortIndex x) _ hp i j hi hj
    rw [sortIndex_default x _ hd]
    omega
  · intro i j hi hj hd hs hlt
    apply lt_of_pairwise_of_key_lt (sortIndex x) _ hp j i hj hi
    rw [sortIndex_invalid x _ hd hs]
    exact hlt

end SortLayersTheorems

/-! ### Theorems on reading and writing the sort index -/

section SortIndexTheorems

variable {N B : Type}

open LayerNode

/-- C11: the sort index of the default layer is pinned: `sortIndex` returns `-1`
whatever the attributes hold and `setSortIndex` leaves the object as it is.  For
a layer that is not the default layer, `setSortIndex(i)` followed by
`sortIndex()` returns `i`, provided the attribute store returns the value just
written and `str_to_int` reads back what `std::to_string` printed; and
`sortIndex()` returns `invalidSortIndex()`, that is `INT_MAX`, when the
attribute is empty or `str_to_int` does not find an integer in it. -/
theorem C11_sort_index_pinned_and_read_back (x : Externals N B) (y : AttributeExternals)
    (n : LayerNode N B) (i : Int) :
    (isDefaultLayer n = true →
      (∀ attrs, sortIndex x { n with attributes := attrs } = -1) ∧
      setSortIndex x y i n = n) ∧
    (isDefaultLayer n = false →
      (x.attributeOf (y.addOrUpdateAttribute n.attributes x.LayerSortIndex (y.to_string i))
          x.LayerSortIndex = y.to_string i →
        (y.to_string i).isEmpty = false →
        x.str_to_int (y.to_string i) = some i →
        sortIndex x (setSortIndex x y i n) = i) ∧
      ((x.attributeOf n.attributes x.LayerSortIndex).isEmpty = true ∨
          x.str_to_int (x.attributeOf n.attributes x.LayerSortIndex) = none →
        sortIndex x n = invalidSortIndex ∧ sortIndex x n = 2147483647)) := by
  refine ⟨?_, ?_⟩
  · intro hd
    refine ⟨?_, ?_⟩
    · intro attrs
      have hd2 : isDefaultLayer ({ n with attributes := attrs } : LayerNode N B) = true := hd
      simp [sortIndex, hd2, defaultLayerSortIndex]
    · simp [setSortIndex, hd]
  · intro hd
    refine ⟨?_, ?_⟩
    · intro h1 h2 h3
      have hset : setSortIndex x y i n = { n with
          attributes := y.addOrUpdateAttribute n.attributes x.LayerSortIndex (y.to_string i) } := by
        simp [setSortIndex, hd]
      have hd2 : isDefaultLayer (setSortIndex x y i n) = false := by
        rw [hset]; exact hd
      unfold sortIndex
      rw [hd2]
      simp only [Bool.false_eq_true, if_false]
      rw [hset]
      simp only
      rw [h1, h2, h3]
      rfl
    · intro hs
      have h := sortIndex_invalid x n hd hs
      exact ⟨h, h⟩

/-- C11 at the sample data: on a layer that is not the default layer the
index 7 is read back after it was set, and on the default layer the index stays
`-1` although the attribute holds 5. -/
theorem C11_sort_index_pinned_and_read_back_witness :
    isDefaultLayer sampleLayer = false ∧
    sortIndex sampleExternals (setSortIndex sampleExternals sampleAttributeExternals 7 sampleLayer)
      = 7 ∧
    isDefaultLayer sampleDefaultLayer = true ∧
    sortIndex sampleExternals sampleDefaultLayer = -1 :=
  ⟨rfl,
   ((C11_sort_index_pinned_and_read_back sampleExternals sampleAttributeExternals
      sampleLayer 7).2 rfl).1 (by decide) (by decide) (by with_unfolding_all decide),
   rfl,
   ((C11_sort_index_pinned_and_read_back sampleExternals sampleAttributeExternals
      sampleDefaultLayer 7).1 rfl).1 sampleDefaultLayer.attributes⟩

end SortIndexTheorems

end Model

/-! ### Theorems on `parseINI` -/

section ParseINITheorems

/-- Lookup after an assignment. -/
theorem mapFind_mapAssign {K V : Type} [DecidableEq K] (m : List (K × V)) (k k1 : K) (v : V) :
    mapFind (mapAssign m k v) k1 = if k = k1 then some v else mapFind m k1 := by
  induction m with
  | nil => simp [mapAssign, mapFind]
  | cons a rest ih =>
    obtain ⟨ka, va⟩ := a
    by_cases h : ka = k
    · subst h
      by_cases h1 : ka = k1 <;> simp [mapAssign, mapFind, h1]
    · by_cases h1 : ka = k1
      · subst h1
        simp [mapAssign, mapFind, h, Ne.symm h]
      · simp [mapAssign, mapFind, h, h1, ih]

/-- Lookup of a section and a key after `result[section][key] = value`. -/
theorem findEntry_assignEntry (m : INIMap) (sec key value s k : QString) :
    findEntry (assignEntry m sec key value) s k =
      if sec = s ∧ key = k then some value else findEntry m s k := by
  unfold findEntry assignEntry
  rw [mapFind_mapAssign]
  by_cases hs : sec = s
  · subst hs
    simp only [if_true, Option.bind, true_and]
    rw [mapFind_mapAssign]
    by_cases hk : key = k
    · simp [hk]
    · simp only [hk, if_false]
      cases h : mapFind m sec <;> simp [mapFind]
  · simp [hs]


/-- The index that `indexOf` returns is the length of the text before the first occurrence. -/
theorem indexOf_eq (l : QString) (c : Char) :
    QString.indexOf l c =
      if c ∈ l then ((l.takeWhile (fun a => a ≠ c)).length : Int) else -1 := by
  induction l with
  | nil => simp [QString.indexOf]
  | cons a rest ih =>
    unfold QString.indexOf
    by_cases h : a = c
    · simp [h]
    · rw [ih]
      by_cases h1 : c ∈ rest
      · have h2 : ((List.takeWhile (fun a => decide (a ≠ c)) rest).length : Int) ≠ -1 := by omega
        simp [h, h1, h2, List.takeWhile_cons]
      · simp [h, h1, Ne.symm h]

/-- Taking as many elements as `takeWhile` keeps gives what `takeWhile` keeps. -/
theorem take_length_takeWhile {α : Type} (p : α → Bool) (l : List α) :
    l.take (l.takeWhile p).length = l.takeWhile p := by
  induction l with
  | nil => rfl
  | cons a rest ih =>
    by_cases h : p a <;> simp [List.takeWhile_cons, h, ih]

/-- Dropping as many elements as `takeWhile` keeps gives what `dropWhile` leaves. -/
theorem drop_length_takeWhile {α : Type} (p : α → Bool) (l : List α) :
    l.drop (l.takeWhile p).length = l.dropWhile p := by
  induction l with
  | nil => rfl
  | cons a rest ih =>
    by_cases h : p a <;> simp [List.takeWhile_cons, List.dropWhile_cons, h, ih]

/-- The text before the first occurrence of a character that occurs is shorter than the line. -/
theorem length_takeWhile_lt_of_mem (l : QString) (c : Char) (h : c ∈ l) :
    (l.takeWhile (fun a => a ≠ c)).length < l.length := by
  induction l with
  | nil => exact absurd h (List.not_mem_nil c)
  | cons a rest ih =>
    by_cases h1 : a = c
    · simp [List.takeWhile_cons, h1]
    · have h2 : c ∈ rest := by
        rcases List.mem_cons.mp h with h3 | h3
        · exact absurd h3.symm h1
        · exact h3
      have h4 := ih h2
      simpa [List.takeWhile_cons, h1] using h4

/-- The key computed by `left` is the text before the first `=`. -/
theorem left_indexOf (l : QString) (h : '=' ∈ l) :
    QString.left l (QString.indexOf l '=') = textBeforeEq l := by
  have hlt := length_takeWhile_lt_of_mem l '=' h
  rw [indexOf_eq, if_pos h]
  unfold QString.left textBeforeEq
  rw [if_neg (by omega)]
  simp [take_length_takeWhile]

/-- The value computed by `mid` is the text after the first `=`. -/
theorem mid_indexOf (l : QString) (h : '=' ∈ l) :
    QString.mid l (QString.indexOf l '=' + 1).toNat (-1) = textAfterEq l := by
  rw [indexOf_eq, if_pos h]
  unfold QString.mid textAfterEq
  rw [if_pos (by decide)]
  have : (((List.takeWhile (fun a => decide (a ≠ '=')) l).length : Int) + 1).toNat
      = (List.takeWhile (fun a => decide (a ≠ '=')) l).length + 1 := by omega
  rw [this, ← List.drop_drop, drop_length_takeWhile]

/-- The test `eqIndex != -1` holds exactly when the line contains `=`. -/
theorem indexOf_ne_neg_one_iff (l : QString) :
    QString.indexOf l '=' ≠ -1 ↔ '=' ∈ l := by
  rw [indexOf_eq]
  by_cases h : '=' ∈ l
  · simp only [h, if_true, iff_true]; omega
  · simp [h]

/-- A heading has at least two characters. -/
theorem heading_length (l : QString) (h : isHeading l = true) : 2 ≤ l.length := by
  match l, h with
  | [], h => simp [isHeading] at h
  | [c], h =>
    simp [isHeading] at h
    obtain ⟨h1, h2⟩ := h
    rw [h1] at h2
    exact absurd h2 (by decide)
  | _ :: _ :: _, _ => simp

/-- For a heading, `mid(1, length - 2)` is the text between the brackets. -/
theorem mid_heading (l : QString) (h : isHeading l = true) :
    QString.mid l 1 ((l.length : Int) - 2) = headingText l := by
  have h2 := heading_length l h
  unfold QString.mid headingText
  rw [if_neg (by omega), List.dropLast_eq_take]
  congr 1
  simp
  omega

/-- One iteration of the loop in terms of the reading of the specification. -/
theorem parseLine_eq (st : QString × INIMap) (raw : QString) :
    parseLine st raw =
      if isHeading (normalized raw) then (headingText (normalized raw), st.2)
      else if '=' ∈ normalized raw then
        (st.1, assignEntry st.2 st.1 (textBeforeEq (normalized raw)) (textAfterEq (normalized raw)))
      else st := by
  unfold parseLine normalized
  generalize QString.replaceEscapedSpaces (QString.trimmed raw) = line
  simp only [QString.startsWith, QString.endsWith]
  change (if isHeading line = true then _ else _) = _
  by_cases h : isHeading line = true
  · rw [if_pos h, if_pos h, mid_heading _ h]
  · rw [if_neg h, if_neg h]
    by_cases h1 : '=' ∈ line
    · rw [if_pos ((indexOf_ne_neg_one_iff _).mpr h1), if_pos h1, left_indexOf _ h1,
        mid_indexOf _ h1]
    · rw [if_neg (fun hc => h1 ((indexOf_ne_neg_one_iff _).mp hc)), if_neg h1]

/-- The current section after one more line. -/
theorem currentSection_snoc (ls : List QString) (raw : QString) :
    currentSection (ls ++ [raw]) =
      if isHeading (normalized raw) then headingText (normalized raw)
      else currentSection ls := by
  unfold currentSection
  rw [List.map_append, List.reverse_append]
  simp only [List.map_cons, List.map_nil, List.reverse_cons, List.reverse_nil, List.nil_append,
    List.singleton_append, List.find?_cons]
  cases h : isHeading (normalized raw) <;> simp

/-- There is no entry beyond the end of the input. -/
theorem isEntryAt_of_length_le (ls : List QString) (i : Nat) (s k : QString)
    (h : ls.length ≤ i) : isEntryAt ls i s k = false := by
  unfold isEntryAt
  rw [List.getElem?_eq_none h]

/-- One more line at the end does not change which earlier lines are entries. -/
theorem isEntryAt_snoc_lt (ls : List QString) (raw : QString) (i : Nat) (s k : QString)
    (h : i < ls.length) : isEntryAt (ls ++ [raw]) i s k = isEntryAt ls i s k := by
  unfold isEntryAt
  rw [List.getElem?_append_left h, List.take_append_of_le_length (Nat.le_of_lt h)]

/-- Whether the line added at the end is an entry. -/
theorem isEntryAt_snoc_length (ls : List QString) (raw : QString) (s k : QString) :
    isEntryAt (ls ++ [raw]) ls.length s k =
      (!isHeading (normalized raw) && decide ('=' ∈ normalized raw) &&
        decide (currentSection ls = s) && decide (textBeforeEq (normalized raw) = k)) := by
  unfold isEntryAt
  rw [List.getElem?_append_right (Nat.le_refl _)]
  simp [List.take_append_of_le_length]

/-- One more line at the end does not change the values of earlier lines. -/
theorem valueAt_snoc_lt (ls : List QString) (raw : QString) (i : Nat)
    (h : i < ls.length) : valueAt (ls ++ [raw]) i = valueAt ls i := by
  unfold valueAt
  rw [List.getElem?_append_left h]

/-- The value of the line added at the end. -/
theorem valueAt_snoc_length (ls : List QString) (raw : QString) :
    valueAt (ls ++ [raw]) ls.length = some (textAfterEq (normalized raw)) := by
  unfold valueAt
  rw [List.getElem?_append_right (Nat.le_refl _)]
  simp

/-- The last entry of a section and a key after one more line. -/
theorem lastEntry_snoc (ls : List QString) (raw : QString) (s k v : QString) :
    LastEntry (ls ++ [raw]) s k v ↔
      if isEntryAt (ls ++ [raw]) ls.length s k = true then v = textAfterEq (normalized raw)
      else LastEntry ls s k v := by
  have hlen : (ls ++ [raw]).length = ls.length + 1 := by simp
  by_cases hE : isEntryAt (ls ++ [raw]) ls.length s k = true
  · rw [if_pos hE]
    constructor
    · rintro ⟨i, hi, hlast, hval⟩
      rcases Nat.lt_trichotomy i ls.length with h | h | h
      · rw [hlast ls.length h] at hE
        exact absurd hE Bool.false_ne_true
      · subst h
        rw [valueAt_snoc_length] at hval
        exact (Option.some.inj hval).symm
      · rw [isEntryAt_of_length_le _ i s k (by omega)] at hi
        exact absurd hi Bool.false_ne_true
    · intro hv
      refine ⟨ls.length, hE, ?_, ?_⟩
      · intro j hj
        exact isEntryAt_of_length_le _ j s k (by omega)
      · rw [valueAt_snoc_length, hv]
  · rw [if_neg hE]
    constructor
    · rintro ⟨i, hi, hlast, hval⟩
      have hilt : i < ls.length := by
        rcases Nat.lt_trichotomy i ls.length with h | h | h
        · exact h
        · subst h; exact absurd hi hE
        · rw [isEntryAt_of_length_le _ i s k (by omega)] at hi
          exact absurd hi Bool.false_ne_true
      refine ⟨i, ?_, ?_, ?_⟩
      · rw [← isEntryAt_snoc_lt ls raw i s k hilt]; exact hi
      · intro j hj
        by_cases hjl : j < ls.length
        · rw [← isEntryAt_snoc_lt ls raw j s k hjl]; exact hlast j hj
        · exact isEntryAt_of_length_le _ j s k (by omega)
      · rw [← valueAt_snoc_lt ls raw i hilt]; exact hval
    · rintro ⟨i, hi, hlast, hval⟩
      have hilt : i < ls.length := by
        by_contra hc
        rw [isEntryAt_of_length_le _ i s k (by omega)] at hi
        exact absurd hi Bool.false_ne_true
      refine ⟨i, ?_, ?_, ?_⟩
      · rw [isEntryAt_snoc_lt ls raw i s k hilt]; exact hi
      · intro j hj
        rcases Nat.lt_trichotomy j ls.length with h | h | h
        · rw [isEntryAt_snoc_lt ls raw j s k h]; exact hlast j hj
        · subst h; simpa using hE
        · exact isEntryAt_of_length_le _ j s k (by omega)
      · rw [valueAt_snoc_lt ls raw i hilt]; exact hval

/-- The empty input has no entry. -/
theorem not_lastEntry_nil (s k v : QString) : ¬ LastEntry [] s k v := by
  rintro ⟨i, hi, _, _⟩
  simp [isEntryAt] at hi

/-- The line added at the end is an entry exactly under the four conditions of the description. -/
theorem isEntryAt_snoc_length_iff (ls : List QString) (raw : QString) (s k : QString) :
    isEntryAt (ls ++ [raw]) ls.length s k = true ↔
      isHeading (normalized raw) = false ∧ '=' ∈ normalized raw ∧
        currentSection ls = s ∧ textBeforeEq (normalized raw) = k := by
  rw [isEntryAt_snoc_length]
  simp [and_assoc]

/-- The loop invariant of `parseINI`: the variable `section` is the current section and the map holds, for every section and key, the value of the last entry. -/
theorem parse_invariant (ls : List QString) :
    (ls.foldl parseLine ([], [])).1 = currentSection ls ∧
    ∀ s k v, findEntry (ls.foldl parseLine ([], [])).2 s k = some v ↔ LastEntry ls s k v := by
  induction ls using List.reverseRecOn with
  | nil =>
    refine ⟨rfl, ?_⟩
    intro s k v
    simp [findEntry, mapFind, not_lastEntry_nil]
  | append_singleton ls raw ih =>
    obtain ⟨ihsec, ihmap⟩ := ih
    rw [List.foldl_append, List.foldl_cons, List.foldl_nil, parseLine_eq, currentSection_snoc]
    by_cases h : isHeading (normalized raw) = true
    · rw [if_pos h, if_pos h]
      refine ⟨rfl, ?_⟩
      intro s k v
      rw [lastEntry_snoc, if_neg, ihmap]
      rw [isEntryAt_snoc_length_iff, h]
      simp
    · rw [if_neg h, if_neg h]
      by_cases h1 : '=' ∈ normalized raw
      · rw [if_pos h1]
        refine ⟨ihsec, ?_⟩
        intro s k v
        rw [lastEntry_snoc, findEntry_assignEntry, ihsec]
        by_cases h2 : currentSection ls = s ∧ textBeforeEq (normalized raw) = k
        · rw [if_pos h2, if_pos]
          · constructor
            · intro hv; exact (Option.some.inj hv).symm
            · intro hv; rw [hv]
          · rw [isEntryAt_snoc_length_iff]
            exact ⟨by simpa using h, h1, h2.1, h2.2⟩
        · rw [if_neg h2, if_neg, ihmap]
          rw [isEntryAt_snoc_length_iff]
          rintro ⟨_, _, h3, h4⟩
          exact h2 ⟨h3, h4⟩
      · rw [if_neg h1]
        refine ⟨ihsec, ?_⟩
        intro s k v
        rw [lastEntry_snoc, if_neg, ihmap]
        rw [isEntryAt_snoc_length_iff]
        rintro ⟨_, h3, _, _⟩
        exact h1 h3

/-- C9: for every input, the result of `parseINI` maps section `s` and key `k`
to `v` exactly when the last line that (after trimming and unescaping) is not a
heading, contains `=`, is read while `s` is the current section and has `k` as
the text before its first `=`, has `v` as the text after that first `=`.  The
current section is the text between the brackets of the most recent heading or
the empty string; lines of neither form add nothing. -/
theorem C9_parseINI_last_entry_wins (iniStream : List QString) (s k v : QString) :
    findEntry (parseINI iniStream) s k = some v ↔
      ∃ i, isEntryAt iniStream i s k = true ∧
        (∀ j, i < j → isEntryAt iniStream j s k = false) ∧
        valueAt iniStream i = some v :=
  (parse_invariant iniStream).2 s k v

/-- C13: an escaped space at the end of a line is not read back as a space.
On the line `k=v\ ` the trimming, which runs before the unescaping, removes the
space of the escape sequence, so the key `k` is mapped to `v` followed by a
backslash and not to `v` followed by a space.  Escaped spaces inside the line
are read back as spaces, as on the line `a\ b=c\ d`. -/
theorem C13_escaped_space_at_end_is_lost :
    QString.trimmed lineWithEscapedSpaceAtEnd = ['k', '=', 'v', QString.backslash] ∧
    findEntry (parseINI [lineWithEscapedSpaceAtEnd]) [] ['k']
      = some ['v', QString.backslash] ∧
    findEntry (parseINI [lineWithEscapedSpaceAtEnd]) [] ['k'] ≠ some ['v', ' '] ∧
    findEntry (parseINI [lineWithEscapedSpacesInside]) [] ['a', ' ', 'b']
      = some ['c', ' ', 'd'] := by
  decide

end ParseINITheorems

/-! ### Theorems on the issue browser -/

namespace View

/-- Two numbers have a bitwise conjunction of zero exactly when they share no
bit. -/
theorem land_eq_zero_iff_no_common_bit (a b : Nat) :
    a &&& b = 0 ↔ ∀ k, ¬ (a.testBit k = true ∧ b.testBit k = true) := by
  constructor
  · intro h k hk
    have h1 : (a &&& b).testBit k = true := by
      rw [Nat.testBit_and, hk.1, hk.2]; rfl
    rw [h, Nat.zero_testBit] at h1
    exact Bool.false_ne_true h1
  · intro h
    apply Nat.eq_of_testBit_eq
    intro k
    rw [Nat.testBit_and, Nat.zero_testBit]
    cases ha : a.testBit k
    · rfl
    · cases hb : b.testBit k
      · rfl
      · exact absurd ⟨ha, hb⟩ (h k)

/-- With hidden issues shown every issue is visible. -/
theorem IssueVisible_show (hiddenTypes : Nat) (issue : Issue) :
    IssueVisible hiddenTypes true issue = true := by
  simp [IssueVisible]

/-- Without hidden issues shown, an issue is visible exactly when it is not
hidden and its type shares no bit with the mask. -/
theorem IssueVisible_hide_iff (hiddenTypes : Nat) (issue : Issue) :
    IssueVisible hiddenTypes false issue = true ↔
      issue.hidden = false ∧
        ∀ k, ¬ (issue.type.testBit k = true ∧ hiddenTypes.testBit k = true) := by
  rw [← land_eq_zero_iff_no_common_bit]
  simp [IssueVisible]

/-- The insertion sort with `IssueCmp` returns a permutation in which no later
element compares before an earlier one. -/
theorem stable_sort_IssueCmp (l : List Issue) :
    (Model.stable_sort IssueCmp l).Perm l ∧
      (Model.stable_sort IssueCmp l).Pairwise (fun a b => IssueCmp b a = false) := by
  have hfun : IssueCmp =
      (fun u v => decide ((fun a : Issue => -(a.seqId : Int)) u
        < (fun a : Issue => -(a.seqId : Int)) v)) := by
    funext u v
    simp [IssueCmp]
  refine ⟨Model.perm_stable_sort _ l, ?_⟩
  have h := Model.pairwise_stable_sort (fun a : Issue => -(a.seqId : Int)) l
  rw [← hfun] at h
  refine h.imp ?_
  intro a b hab
  simp only [IssueCmp, decide_eq_false_iff_not, not_lt, gt_iff_lt]
  omega

/-- C12: after `updateIssues`, provided the visitor collects the issues of the
world that satisfy its predicate and the sort returns a sorted permutation, the
list of the browser holds every issue of the world when hidden issues are
shown, and otherwise exactly the issues that are not hidden and whose type
shares no bit with the mask of hidden generators; the list is in descending
order of the sequence ids. -/
theorem C12_updateIssues_lists_visible_issues {W : Type} (x : IssueExternals W) (world : W)
    (v : IssueBrowserView)
    (hcollect : ∀ p, (x.collectMatching p world).Perm ((x.issues world).filter p))
    (hsort : ∀ l, (x.sort IssueCmp l).Perm l ∧
      (x.sort IssueCmp l).Pairwise (fun a b => IssueCmp b a = false)) :
    (v.m_showHiddenIssues = true →
      (updateIssues x world v).m_issues.Perm (x.issues world)) ∧
    (v.m_showHiddenIssues = false →
      (updateIssues x world v).m_issues.Perm
        ((x.issues world).filter
          (fun i => !i.hidden && (i.type &&& v.m_hiddenGenerators) == 0)) ∧
      ∀ i, i ∈ (updateIssues x world v).m_issues ↔
        i ∈ x.issues world ∧ i.hidden = false ∧
          ∀ k, ¬ (i.type.testBit k = true ∧ v.m_hiddenGenerators.testBit k = true)) ∧
    (updateIssues x world v).m_issues.Pairwise (fun a b => a.seqId ≥ b.seqId) ∧
    (updateIssues x world v).m_hiddenGenerators = v.m_hiddenGenerators ∧
    (updateIssues x world v).m_showHiddenIssues = v.m_showHiddenIssues := by
  have hperm : (updateIssues x world v).m_issues.Perm
      ((x.issues world).filter (IssueVisible v.m_hiddenGenerators v.m_showHiddenIssues)) :=
    (hsort _).1.trans (hcollect _)
  refine ⟨?_, ?_, ?_, rfl, rfl⟩
  · intro hs
    rw [hs] at hperm
    have hall : (x.issues world).filter (IssueVisible v.m_hiddenGenerators true)
        = x.issues world := by
      rw [List.filter_eq_self]
      intro i _
      exact IssueVisible_show _ i
    rw [hall] at hperm
    exact hperm
  · intro hs
    rw [hs] at hperm
    have hfun : IssueVisible v.m_hiddenGenerators false
        = (fun i => !i.hidden && (i.type &&& v.m_hiddenGenerators) == 0) := by
      funext i
      simp [IssueVisible]
    refine ⟨?_, ?_⟩
    · rw [← hfun]; exact hperm
    · intro i
      rw [hperm.mem_iff, List.mem_filter, IssueVisible_hide_iff]
  · have h := (hsort (x.collectMatching
      (IssueVisible v.m_hiddenGenerators v.m_showHiddenIssues) world)).2
    refine List.Pairwise.imp ?_ h
    intro a b hab
    simp only [IssueCmp, decide_eq_false_iff_not, not_lt, gt_iff_lt] at hab
    exact hab

/-- C12 at the sample world: of the four issues the hidden one and the one of
the hidden generator are left out, and the two others stand in descending
order of their sequence ids. -/
theorem C12_updateIssues_lists_visible_issues_witness :
    (updateIssues sampleIssueExternals sampleWorld sampleView).m_issues
      = [⟨9, 4, false⟩, ⟨3, 1, false⟩] ∧
    (updateIssues sampleIssueExternals sampleWorld sampleView).m_issues.Pairwise
      (fun a b => a.seqId ≥ b.seqId) :=
  ⟨by decide,
   (C12_updateIssues_lists_visible_issues sampleIssueExternals sampleWorld sampleView
      (fun _ => List.Perm.refl _) stable_sort_IssueCmp).2.2.1⟩

end View

end TrenchBroom
